import Mathlib

/-!
Verification of the file-force crypto/harvester core.

Shallow embedding of `lib/lib-crypto.js` (class `LibCrypto` plus the
harvester command script) and `src/cmd-ipfs.js`.

Modelling conventions:
* Node `Buffer`s are `List Nat` (each entry a byte value; boundedness by 256
  is stated as a hypothesis or established by construction where it matters).
* Hex strings are `List Char`; `Buffer.from(s, "hex")` uses Node's
  longest-valid-prefix pair decoding, embedded as `hexDecode`.
* `crypto.randomBytes n` is embedded by passing the randomness source
  explicitly as a function `seed : Nat → Nat`; `randomBytes seed n` always
  has length `n`, like its Node counterpart.
* The AES-256 block cipher itself is external to the repository (OpenSSL);
  the CTR mode of `aes-256-ctr` is embedded faithfully (big-endian counter
  block, XOR of the generated keystream) over an arbitrary block function
  `E : key → block → block`.  Every theorem about the cipher holds for every
  block function, in particular for AES.
* The secp256k1 group operations come from the external `elliptic` package;
  the point group is embedded as a module over the scalar ring, with the
  curve-specific parts (x-coordinate extraction, recovery of a point from an
  x-coordinate and a parity bit) abstracted as functions constrained by
  hypotheses that hold on the real curve.
* JavaScript exceptions that a function catches (returning `null`) are
  embedded as `Option`, thrown exceptions as `Except`.
-/

namespace LibCrypto

/-- The lowercase hex character of a nibble (codepoints 48–57 are the
digits, 97–102 the letters). -/
def hexDigit (n : Nat) : Char := Char.ofNat (if n < 10 then 48 + n else 87 + n)

/-- `Buffer.prototype.toString("hex")`: two lowercase hex characters per byte. -/
def bytesToHex : List Nat → List Char
  | [] => []
  | b :: rest => hexDigit (b / 16) :: hexDigit (b % 16) :: bytesToHex rest

/-- Value of one hex character, if it is one. -/
def hexVal (c : Char) : Option Nat :=
  if 48 ≤ c.toNat ∧ c.toNat ≤ 57 then some (c.toNat - 48)
  else if 97 ≤ c.toNat ∧ c.toNat ≤ 102 then some (c.toNat - 87)
  else if 65 ≤ c.toNat ∧ c.toNat ≤ 70 then some (c.toNat - 55)
  else none

/-- `Buffer.from(s, "hex")` in Node: decode pairs of hex characters,
stopping at the first pair that is not two valid hex digits (this also
drops a trailing unpaired character). -/
def hexDecode : List Char → List Nat
  | c1 :: c2 :: rest =>
    match hexVal c1, hexVal c2 with
    | some hi, some lo => (16 * hi + lo) :: hexDecode rest
    | _, _ => []
  | _ => []

/-- A value that is either already a `Buffer` or still a string
(the two cases `str2buf` distinguishes). -/
inductive BinData where
  | buf (bytes : List Nat)
  | str (chars : List Char)
deriving DecidableEq, Repr

/-- `str2buf(str, enc)` for the encoding arguments the modelled call sites
use: a `Buffer` passes through unchanged; a string is decoded with the given
encoding.  The call sites embedded here pass `"hex"`; the base64 and
auto-detection branches are only reachable from string-typed payload
arguments, which the modelled call sites pass as `Buffer`s. -/
def str2buf (d : BinData) (enc : String) : List Nat :=
  match d with
  | .buf bs => bs
  | .str cs => if enc = "hex" then hexDecode cs else []

/-- `crypto.randomBytes n` with the randomness source made explicit. -/
def randomBytes (seed : Nat → Nat) (n : Nat) : List Nat :=
  (List.range n).map (fun i => seed i % 256)

/-- Big-endian interpretation of a byte list as a natural number. -/
def bytesToNatBE (bs : List Nat) : Nat :=
  bs.foldl (fun a b => a * 256 + b % 256) 0

/-- Big-endian `len`-byte encoding of a natural number. -/
def natToBytesBE (len v : Nat) : List Nat :=
  (List.range len).map (fun i => v / 256 ^ (len - 1 - i) % 256)

/-- Keystream byte `i` of CTR mode over the block function `E`: the IV is
read as a 128-bit big-endian counter, incremented per 16-byte block. -/
def aesCtrKeystream (E : List Nat → List Nat → List Nat)
    (key iv : List Nat) (i : Nat) : Nat :=
  (E key (natToBytesBE 16 ((bytesToNatBE iv + i / 16) % 2 ^ 128))).getD (i % 16) 0 % 256

/-- XOR a byte list against a keystream, starting at index `i`. -/
def xorIdx (ks : Nat → Nat) : Nat → List Nat → List Nat
  | _, [] => []
  | i, b :: rest => (b ^^^ ks i) :: xorIdx ks (i + 1) rest

/-- `cipher.update(data)` + `cipher.final()` for a CTR-mode cipher:
XOR with the keystream (`final()` adds nothing in a stream mode). -/
def ctrXor (E : List Nat → List Nat → List Nat) (key iv data : List Nat) : List Nat :=
  xorIdx (aesCtrKeystream E key iv) 0 data

/-- Options record taken by `createCipher` / `encrypt`
(`{algorithm?, iv?}`; absent fields are `none`). -/
structure CipherOptions where
  algorithm : Option String
  iv : Option (List Nat)
deriving DecidableEq, Repr

/-- Options record taken by `createDecipher` (`{algorithm?, iv?}`). -/
structure DecipherOptions where
  algorithm : Option String
  iv : Option (List Nat)
deriving DecidableEq, Repr

/-- Options record taken by `decrypt`
(`{algorithm?, cipherEncoding?, iv?}`); the iv may be a hex string or a
`Buffer`.  `cipherEncoding` only affects string-typed ciphertext arguments
and is therefore unused on the embedded `Buffer` path. -/
structure DecryptOptions where
  algorithm : Option String
  cipherEncoding : Option String
  iv : Option BinData
deriving DecidableEq, Repr

/-- The `{algorithm, iv, cipherText}` record returned by `encrypt`
(the iv is hex-encoded by `iv.toString("hex")`). -/
structure CipherEnvelope where
  algorithm : String
  iv : List Char
  cipherText : List Nat
deriving DecidableEq, Repr

/-- `LibCrypto.createCipher`: algorithm defaults to `"aes-256-ctr"`, iv to
`crypto.randomBytes(16)`.  `crypto.createCipheriv` throws unless the key and
iv lengths fit the algorithm; only the default algorithm (the only one any
modelled call site selects) is embedded, so the throwing cases are exactly a
wrong key or iv size.  Returns the negotiated (iv, algorithm). -/
def createCipher (secretKey : List Nat) (options : CipherOptions)
    (seed : Nat → Nat) : Option (List Nat × String) :=
  let algorithm := options.algorithm.getD "aes-256-ctr"
  let iv := options.iv.getD (randomBytes seed 16)
  if algorithm = "aes-256-ctr" ∧ secretKey.length = 32 ∧ iv.length = 16 then
    some (iv, algorithm)
  else none

/-- `LibCrypto.createDecipher`: the iv defaults to `zeros(16)`, but `zeros`
is not defined anywhere in the module, so an absent iv raises a
`ReferenceError` (embedded as `Except.error`); with an iv present,
`crypto.createDecipheriv` validates the key and iv sizes. -/
def createDecipher (secretKey : List Nat) (options : DecipherOptions) :
    Except String (List Nat × String) :=
  let algorithm := options.algorithm.getD "aes-256-ctr"
  match options.iv with
  | none => Except.error "ReferenceError: zeros is not defined"
  | some iv =>
    if algorithm = "aes-256-ctr" ∧ secretKey.length = 32 ∧ iv.length = 16 then
      Except.ok (iv, algorithm)
    else Except.error "Invalid key or iv length"

/-- `LibCrypto.encrypt`: build a cipher via `createCipher`, encrypt
`data` (already a `Buffer`; `str2buf` passes it through), and return the
envelope with a hex-encoded iv.  Any exception is caught and `null`
(embedded as `none`) is returned. -/
def encrypt (E : List Nat → List Nat → List Nat) (data secretKey : List Nat)
    (options : CipherOptions) (seed : Nat → Nat) : Option CipherEnvelope :=
  match createCipher secretKey options seed with
  | none => none
  | some (iv, algorithm) => some ⟨algorithm, bytesToHex iv, ctrXor E secretKey iv data⟩

/-- `LibCrypto.decrypt`: with the iv option absent, evaluating the default
`zeros(16)` raises a `ReferenceError` that the surrounding `try` catches,
returning `null`; otherwise the iv is hex-decoded with `str2buf`, the
decipher is created (throwing, hence `null`, on a key/iv size mismatch) and
the `Buffer`-typed data (which `str2buf` passes through) is deciphered. -/
def decrypt (E : List Nat → List Nat → List Nat) (data secretKey : List Nat)
    (options : DecryptOptions) : Option (List Nat) :=
  match options.iv with
  | none => none
  | some ivd =>
    let algorithm := options.algorithm.getD "aes-256-ctr"
    let binIV := str2buf ivd "hex"
    if algorithm = "aes-256-ctr" ∧ secretKey.length = 32 ∧ binIV.length = 16 then
      some (ctrXor E secretKey binIV data)
    else none

theorem randomBytes_length (seed : Nat → Nat) (n : Nat) :
    (randomBytes seed n).length = n := by
  simp [randomBytes]

theorem randomBytes_lt (seed : Nat → Nat) (n : Nat) :
    ∀ b ∈ randomBytes seed n, b < 256 := by
  intro b hb
  simp only [randomBytes, List.mem_map] at hb
  obtain ⟨i, -, rfl⟩ := hb
  exact Nat.mod_lt _ (by norm_num)

theorem hexVal_hexDigit (n : Nat) (h : n < 16) : hexVal (hexDigit n) = some n := by
  interval_cases n <;> rfl

theorem hexDecode_bytesToHex (bs : List Nat) (h : ∀ b ∈ bs, b < 256) :
    hexDecode (bytesToHex bs) = bs := by
  induction bs with
  | nil => rfl
  | cons b rest ih =>
    have hb : b < 256 := h b (List.mem_cons_self b rest)
    have hhi : b / 16 < 16 := Nat.div_lt_of_lt_mul (by omega)
    have hlo : b % 16 < 16 := Nat.mod_lt _ (by norm_num)
    have hrest : hexDecode (bytesToHex rest) = rest :=
      ih (fun x hx => h x (List.mem_cons_of_mem b hx))
    simp [bytesToHex, hexDecode, hexVal_hexDigit _ hhi, hexVal_hexDigit _ hlo, hrest]
    omega

theorem xorIdx_xorIdx (ks : Nat → Nat) (i : Nat) (data : List Nat) :
    xorIdx ks i (xorIdx ks i data) = data := by
  induction data generalizing i with
  | nil => rfl
  | cons b rest ih =>
    simp [xorIdx, ih, Nat.xor_assoc]

theorem ctrXor_ctrXor (E : List Nat → List Nat → List Nat) (key iv data : List Nat) :
    ctrXor E key iv (ctrXor E key iv data) = data :=
  xorIdx_xorIdx _ 0 data

theorem encrypt_default_eq (E : List Nat → List Nat → List Nat)
    (data secretKey : List Nat) (seed : Nat → Nat) (hkey : secretKey.length = 32) :
    encrypt E data secretKey ⟨none, none⟩ seed =
      some ⟨"aes-256-ctr", bytesToHex (randomBytes seed 16),
            ctrXor E secretKey (randomBytes seed 16) data⟩ := by
  simp [encrypt, createCipher, hkey, randomBytes_length]

theorem encrypt_default_badkey (E : List Nat → List Nat → List Nat)
    (data secretKey : List Nat) (seed : Nat → Nat) (hkey : secretKey.length ≠ 32) :
    encrypt E data secretKey ⟨none, none⟩ seed = none := by
  simp [encrypt, createCipher, hkey]

/-- C1: decrypting the envelope produced by `encrypt` under the default
options with the same 32-byte key, using the envelope's own algorithm and
(hex-encoded) iv, returns exactly the plaintext bytes.  Holds for every
block function `E`, in particular for the AES-256 core of `aes-256-ctr`. -/
theorem encrypt_decrypt_roundtrip (E : List Nat → List Nat → List Nat)
    (data secretKey : List Nat) (seed : Nat → Nat) (env : CipherEnvelope)
    (henc : encrypt E data secretKey ⟨none, none⟩ seed = some env) :
    decrypt E env.cipherText secretKey ⟨some env.algorithm, none, some (BinData.str env.iv)⟩ =
      some data := by
  by_cases hkey : secretKey.length = 32
  · rw [encrypt_default_eq E data secretKey seed hkey] at henc
    obtain rfl := Option.some.inj henc
    simp [decrypt, str2buf, hexDecode_bytesToHex _ (randomBytes_lt seed 16),
      randomBytes_length, hkey, ctrXor_ctrXor]
  · rw [encrypt_default_badkey E data secretKey seed hkey] at henc
    cases henc

/-- Fixed witness inputs: the block function and key are arbitrary concrete
values, randomness is the identity stream. -/
def sampleBlockCipher : List Nat → List Nat → List Nat := fun _ block => block

def sampleKey : List Nat := List.replicate 32 0

def sampleSeed : Nat → Nat := fun i => i

def sampleEnvelope : CipherEnvelope :=
  ⟨"aes-256-ctr", bytesToHex (randomBytes sampleSeed 16),
   ctrXor sampleBlockCipher sampleKey (randomBytes sampleSeed 16) [1, 2, 3]⟩

theorem encrypt_decrypt_roundtrip_witness :
    decrypt sampleBlockCipher sampleEnvelope.cipherText sampleKey
      ⟨some sampleEnvelope.algorithm, none, some (BinData.str sampleEnvelope.iv)⟩ =
      some [1, 2, 3] :=
  encrypt_decrypt_roundtrip sampleBlockCipher [1, 2, 3] sampleKey sampleSeed
    sampleEnvelope (by decide)

/-- C6: an envelope produced by `encrypt` without an algorithm or iv
override carries the default algorithm `aes-256-ctr` and an iv that decodes
from hex to exactly the 16 freshly generated random bytes — the iv length
that algorithm requires. -/
theorem encrypt_default_envelope (E : List Nat → List Nat → List Nat)
    (data secretKey : List Nat) (seed : Nat → Nat) (env : CipherEnvelope)
    (henc : encrypt E data secretKey ⟨none, none⟩ seed = some env) :
    env.algorithm = "aes-256-ctr" ∧ hexDecode env.iv = randomBytes seed 16 ∧
      (hexDecode env.iv).length = 16 := by
  by_cases hkey : secretKey.length = 32
  · rw [encrypt_default_eq E data secretKey seed hkey] at henc
    obtain rfl := Option.some.inj henc
    refine ⟨rfl, hexDecode_bytesToHex _ (randomBytes_lt seed 16), ?_⟩
    rw [hexDecode_bytesToHex _ (randomBytes_lt seed 16), randomBytes_length]
  · rw [encrypt_default_badkey E data secretKey seed hkey] at henc
    cases henc

theorem encrypt_default_envelope_witness :
    sampleEnvelope.algorithm = "aes-256-ctr" ∧
      hexDecode sampleEnvelope.iv = randomBytes sampleSeed 16 ∧
      (hexDecode sampleEnvelope.iv).length = 16 :=
  encrypt_default_envelope sampleBlockCipher [1, 2, 3] sampleKey sampleSeed
    sampleEnvelope (by decide)

/-- C4: a structurally inconsistent decryption input — a key that is not 32
bytes, or an iv option that does not provide the 16 iv bytes the algorithm
requires (wrong length, or a hex string whose valid prefix decodes to the
wrong number of bytes) — makes `decrypt` fail: `createDecipheriv` throws,
the exception is caught, and the caller receives `null` (embedded `none`),
the surfaced `DecryptionError` of the design.  For the default stream
cipher, no ciphertext length is structurally inconsistent. -/
theorem decrypt_structural_mismatch (E : List Nat → List Nat → List Nat)
    (data secretKey : List Nat) (algOpt encOpt : Option String) (ivd : BinData)
    (hbad : secretKey.length ≠ 32 ∨ (str2buf ivd "hex").length ≠ 16) :
    decrypt E data secretKey ⟨algOpt, encOpt, some ivd⟩ = none := by
  simp only [decrypt]
  rw [if_neg]
  rintro ⟨-, hk, hiv⟩
  rcases hbad with h | h
  · exact h hk
  · exact h hiv

theorem decrypt_structural_mismatch_witness :
    decrypt sampleBlockCipher [1, 2, 3] (List.replicate 31 0)
      ⟨none, none, some (BinData.buf (List.replicate 16 0))⟩ = none :=
  decrypt_structural_mismatch sampleBlockCipher [1, 2, 3] (List.replicate 31 0)
    none none (BinData.buf (List.replicate 16 0)) (by decide)

/-- C10: the helper `zeros` that `createDecipher` and `decrypt` use as the
default iv is defined nowhere in the module.  A `createDecipher` call whose
options omit the iv therefore throws a `ReferenceError` (instead of
deciphering with a 16-byte zero iv), and a `decrypt` call whose options omit
the iv catches that exception internally and returns `null` (embedded
`none`) rather than a plaintext. -/
theorem zeros_undefined_default_iv (E : List Nat → List Nat → List Nat)
    (data secretKey : List Nat) (dopts : DecipherOptions) (opts : DecryptOptions)
    (h1 : dopts.iv = none) (h2 : opts.iv = none) :
    createDecipher secretKey dopts = Except.error "ReferenceError: zeros is not defined" ∧
      decrypt E data secretKey opts = none := by
  constructor
  · simp [createDecipher, h1]
  · simp [decrypt, h2]

theorem zeros_undefined_default_iv_witness :
    createDecipher sampleKey ⟨none, none⟩ =
        Except.error "ReferenceError: zeros is not defined" ∧
      decrypt sampleBlockCipher [1, 2, 3] sampleKey ⟨none, none, none⟩ = none :=
  zeros_undefined_default_iv sampleBlockCipher [1, 2, 3] sampleKey
    ⟨none, none⟩ ⟨none, none, none⟩ rfl rfl

end LibCrypto

/-!
Elliptic-curve operations (`private2public`, `deriveSharedKey`, `sign`,
`recovery`).  The `elliptic` package implements the secp256k1 group; the
embedding works over an arbitrary module `G` (the point group, written
additively: `elliptic`'s `mul` is the scalar action `•`) over a commutative
scalar ring `F` with an inversion operation (the scalars mod the group
order `n`).  Curve-specific facts are abstracted:
* `getXmodN : G → F` is `getX().umod(n)` (x-coordinate, reduced mod `n`);
* `parity : G → Nat` is `recoveryParam`, the y-parity / second-key bits
  computed by `elliptic`'s `sign`;
* `pointFromX : F → Nat → G` is `pointFromX` as used by `recoverPubKey`,
  constrained by the hypothesis (true on the real curve, and the stated
  purpose of the recovery parameter) that it reconstructs a point from its
  x-coordinate and recovery parameter.
The digest argument is taken already truncated into the scalar ring
(`_truncateToN`, applied identically by `sign` and `recovery`).
-/

namespace LibCrypto

section EC

variable {F : Type} [CommRing F] {G : Type} [AddCommGroup G] [Module F G]

/-- `LibCrypto.private2public`: scalar multiplication of the base point
(`ec.keyFromPrivate(k).getPublic()`; the `"arr"` serialization both sides of
the compared equations apply identically is omitted). -/
def private2public (g : G) (privateKey : F) : G := privateKey • g

/-- `LibCrypto.deriveSharedKey`: `elliptic`'s ECDH
`keyPair1.derive(keyPair2.getPublic())`, which computes
`pub2.mul(priv1).getX()` — the x-coordinate (extracted by an arbitrary
`getX`) of the scalar product. -/
def deriveSharedKey {X : Type} (getX : G → X) (privateKey1 : F) (publicKey2 : G) : X :=
  getX (privateKey1 • publicKey2)

/-- C2: ECDH is symmetric — deriving with (A.private, B.public) and with
(B.private, A.public) yields the identical value, for every base point,
every x-coordinate extractor and every pair of private scalars. -/
theorem deriveSharedKey_symm {X : Type} (getX : G → X) (g : G) (a b : F) :
    deriveSharedKey getX a (private2public g b) =
      deriveSharedKey getX b (private2public g a) := by
  simp [deriveSharedKey, private2public, smul_smul, mul_comm]

variable [Inv F]

/-- An `elliptic` ECDSA signature `{r, s, recoveryParam}`. -/
structure EcSignature (F : Type) where
  r : F
  s : F
  recoveryParam : Nat

/-- `LibCrypto.sign` = `keyPair.sign(message)`: with nonce `k`,
`R = k·G`, `r = x(R) mod n`, `s = k⁻¹(z + r·d)`, plus the recovery
parameter of `R`. -/
def sign (g : G) (getXmodN : G → F) (parity : G → Nat)
    (message privateKey nonce : F) : EcSignature F :=
  let R := nonce • g
  let r := getXmodN R
  ⟨r, nonce⁻¹ * (message + r * privateKey), parity R⟩

/-- `LibCrypto.recovery` = `ec.recoverPubKey(z, sig, sig.recoveryParam)`:
reconstruct `R` from `r` and the recovery parameter, then return
`g.mulAdd(s1, R, s2) = ((n − z)·r⁻¹)·G + (s·r⁻¹)·R`. -/
def recovery (g : G) (pointFromX : F → Nat → G)
    (signature : EcSignature F) (message : F) : G :=
  let R := pointFromX signature.r signature.recoveryParam
  let rInv := signature.r⁻¹
  ((0 - message) * rInv) • g + (signature.s * rInv) • R

/-- C3: recovering the public key from `sign message privateKey` over the
same message digest yields `private2public privateKey`, provided the nonce
and the x-coordinate `r` are nonzero (`elliptic` regenerates the nonce
otherwise) and pointFromX/parity reconstruct points faithfully; `hinv` is
the field law of the scalars mod the prime group order. -/
theorem sign_recovery_roundtrip (g : G) (getXmodN : G → F) (parity : G → Nat)
    (pointFromX : F → Nat → G)
    (hcurve : ∀ P : G, pointFromX (getXmodN P) (parity P) = P)
    (hinv : ∀ x : F, x ≠ 0 → x⁻¹ * x = 1)
    (message privateKey nonce : F)
    (hk : nonce ≠ 0)
    (hr : getXmodN (nonce • g) ≠ 0) :
    recovery g pointFromX (sign g getXmodN parity message privateKey nonce) message =
      private2public g privateKey := by
  have hscalar :
      (0 - message) * (getXmodN (nonce • g))⁻¹ +
        nonce⁻¹ * (message + getXmodN (nonce • g) * privateKey) *
          (getXmodN (nonce • g))⁻¹ * nonce = privateKey := by
    linear_combination
      (message + getXmodN (nonce • g) * privateKey) * (getXmodN (nonce • g))⁻¹ *
          hinv nonce hk +
        privateKey * hinv (getXmodN (nonce • g)) hr
  simp only [recovery, sign, private2public, hcurve (nonce • g), smul_smul]
  rw [← add_smul, hscalar]

theorem sign_recovery_roundtrip_witness :
    recovery (1 : ℚ) (fun x _ => x)
        (sign (1 : ℚ) id (fun _ => 0) 3 2 1) 3 =
      private2public (1 : ℚ) (2 : ℚ) :=
  sign_recovery_roundtrip (1 : ℚ) id (fun _ => 0) (fun x _ => x)
    (fun _ => rfl) (fun x hx => inv_mul_cancel₀ hx) 3 2 1 one_ne_zero
    (by simp)

end EC

/-!
SHA-256, HMAC-SHA256 and HKDF (RFC 5869), as used by
`LibCrypto.deriveSecretKey` through `node-hkdf-sync` with the default hash
`"sha256"`.  Words are `Nat` reduced mod `2 ^ 32` at every operation that
can overflow.
-/

/-- Rotate the 32-bit word `x` right by `n` positions. -/
def rotr32 (n x : Nat) : Nat := (x >>> n ||| x <<< (32 - n)) % 2 ^ 32

def bigS0 (x : Nat) : Nat := rotr32 2 x ^^^ rotr32 13 x ^^^ rotr32 22 x

def bigS1 (x : Nat) : Nat := rotr32 6 x ^^^ rotr32 11 x ^^^ rotr32 25 x

def smallS0 (x : Nat) : Nat := rotr32 7 x ^^^ rotr32 18 x ^^^ x >>> 3

def smallS1 (x : Nat) : Nat := rotr32 17 x ^^^ rotr32 19 x ^^^ x >>> 10

def chFn (e f g : Nat) : Nat := e &&& f ^^^ (e ^^^ (2 ^ 32 - 1)) &&& g

def majFn (a b c : Nat) : Nat := a &&& b ^^^ a &&& c ^^^ b &&& c

/-- The 64 SHA-256 round constants (decimal values of the FIPS 180-4
table, row-major). -/
def shaK : List Nat :=
  [1116352408, 1899447441, 3049323471, 3921009573, 961987163, 1508970993,
   2453635748, 2870763221, 3624381080, 310598401, 607225278, 1426881987,
   1925078388, 2162078206, 2614888103, 3248222580, 3835390401, 4022224774,
   264347078, 604807628, 770255983, 1249150122, 1555081692, 1996064986,
   2554220882, 2821834349, 2952996808, 3210313671, 3336571891, 3584528711,
   113926993, 338241895, 666307205, 773529912, 1294757372, 1396182291,
   1695183700, 1986661051, 2177026350, 2456956037, 2730485921, 2820302411,
   3259730800, 3345764771, 3516065817, 3600352804, 4094571909, 275423344,
   430227734, 506948616, 659060556, 883997877, 958139571, 1322822218,
   1537002063, 1747873779, 1955562222, 2024104815, 2227730452, 2361852424,
   2428436474, 2756734187, 3204031479, 3329325298]

/-- The eight 32-bit words of the SHA-256 working state. -/
structure HashState where
  a : Nat
  b : Nat
  c : Nat
  d : Nat
  e : Nat
  f : Nat
  g : Nat
  h : Nat
deriving DecidableEq, Repr

/-- The SHA-256 initial hash value (decimal values of the FIPS 180-4
words). -/
def shaH0 : HashState :=
  ⟨1779033703, 3144134277, 1013904242, 2773480762,
   1359893119, 2600822924, 528734635, 1541459225⟩

/-- One SHA-256 compression round for a (constant, schedule-word) pair. -/
def roundStep (st : HashState) (kw : Nat × Nat) : HashState :=
  let t1 := (st.h + bigS1 st.e + chFn st.e st.f st.g + kw.1 + kw.2) % 2 ^ 32
  let t2 := (bigS0 st.a + majFn st.a st.b st.c) % 2 ^ 32
  ⟨(t1 + t2) % 2 ^ 32, st.a, st.b, st.c, (st.d + t1) % 2 ^ 32, st.e, st.f, st.g⟩

/-- The first 16 schedule words of a 64-byte chunk (big-endian). -/
def chunkWords (chunk : List Nat) : List Nat :=
  (List.range 16).map (fun i =>
    chunk.getD (4 * i) 0 % 256 * 2 ^ 24 + chunk.getD (4 * i + 1) 0 % 256 * 2 ^ 16 +
      chunk.getD (4 * i + 2) 0 % 256 * 2 ^ 8 + chunk.getD (4 * i + 3) 0 % 256)

/-- Append the next schedule word `W[t] = σ1 W[t−2] + W[t−7] + σ0 W[t−15] + W[t−16]`. -/
def extendStep (w : List Nat) : List Nat :=
  w ++ [(smallS1 (w.getD (w.length - 2) 0) + w.getD (w.length - 7) 0 +
         smallS0 (w.getD (w.length - 15) 0) + w.getD (w.length - 16) 0) % 2 ^ 32]

def iterateExtend : Nat → List Nat → List Nat
  | 0, w => w
  | n + 1, w => iterateExtend n (extendStep w)

/-- The 64 schedule words of a chunk. -/
def messageSchedule (chunk : List Nat) : List Nat := iterateExtend 48 (chunkWords chunk)

/-- Compress one 64-byte chunk into the state. -/
def processChunk (st : HashState) (chunk : List Nat) : HashState :=
  let c := (shaK.zip (messageSchedule chunk)).foldl roundStep st
  ⟨(st.a + c.a) % 2 ^ 32, (st.b + c.b) % 2 ^ 32, (st.c + c.c) % 2 ^ 32,
   (st.d + c.d) % 2 ^ 32, (st.e + c.e) % 2 ^ 32, (st.f + c.f) % 2 ^ 32,
   (st.g + c.g) % 2 ^ 32, (st.h + c.h) % 2 ^ 32⟩

/-- Split a byte list into 64-byte chunks. -/
def toChunks : List Nat → List (List Nat)
  | [] => []
  | b :: rest => ((b :: rest).take 64) :: toChunks ((b :: rest).drop 64)
termination_by l => l.length
decreasing_by simp [List.length_drop]; omega

/-- SHA-256 padding: `0x80`, zeros to 56 mod 64, then the 64-bit big-endian
bit length. -/
def padMessage (msg : List Nat) : List Nat :=
  msg ++ [0x80] ++ List.replicate ((119 - msg.length % 64) % 64) 0 ++
    natToBytesBE 8 (msg.length * 8 % 2 ^ 64)

/-- The four big-endian bytes of a 32-bit word. -/
def wordBytesBE (w : Nat) : List Nat :=
  [w / 2 ^ 24 % 256, w / 2 ^ 16 % 256, w / 2 ^ 8 % 256, w % 256]

/-- SHA-256 of a byte list. -/
def sha256 (msg : List Nat) : List Nat :=
  let s := (toChunks (padMessage msg)).foldl processChunk shaH0
  wordBytesBE s.a ++ wordBytesBE s.b ++ wordBytesBE s.c ++ wordBytesBE s.d ++
    wordBytesBE s.e ++ wordBytesBE s.f ++ wordBytesBE s.g ++ wordBytesBE s.h

/-- HMAC key preprocessing: hash keys longer than the 64-byte block, then
pad with zeros to the block size. -/
def hmacKeyBlock (key : List Nat) : List Nat :=
  let k0 := if 64 < key.length then sha256 key else key
  k0 ++ List.replicate (64 - k0.length) 0

/-- HMAC-SHA256. -/
def hmacSha256 (key data : List Nat) : List Nat :=
  let kb := hmacKeyBlock key
  sha256 ((kb.map (fun b => b % 256 ^^^ 0x5c)) ++
    sha256 ((kb.map (fun b => b % 256 ^^^ 0x36)) ++ data))

/-- HKDF extract step: `PRK = HMAC(salt, IKM)`. -/
def hkdfExtract (salt ikm : List Nat) : List Nat := hmacSha256 salt ikm

/-- HKDF expand blocks `T(i) = HMAC(PRK, T(i−1) ‖ info ‖ i)`, `fuel` blocks
starting at counter `i`. -/
def hkdfExpandLoop (prk info prev : List Nat) (i : Nat) : Nat → List Nat
  | 0 => []
  | n + 1 =>
    let t := hmacSha256 prk (prev ++ info ++ [i % 256])
    t ++ hkdfExpandLoop prk info t (i + 1) n

/-- HKDF-SHA256 (RFC 5869): extract then expand to `size` bytes. -/
def hkdf (salt ikm info : List Nat) (size : Nat) : List Nat :=
  (hkdfExpandLoop (hkdfExtract salt ikm) info [] 1 ((size + 31) / 32)).take size

/-- Bytes of an (ASCII) JavaScript string. -/
def strBytes (s : String) : List Nat := s.toList.map Char.toNat

/-- Options record taken by `deriveSecretKey`
(`{hashAlg?, info?, size?, salt?}`; the salt may be a hex string or a
`Buffer`). -/
structure HkdfOptions where
  hashAlg : Option String
  info : Option String
  size : Option Nat
  salt : Option BinData
deriving DecidableEq, Repr

/-- The `hkdf` parameter record `deriveSecretKey` returns alongside the key
(field `hashAgl` spelled as in the source). -/
structure HkdfParams where
  hashAgl : String
  salt : List Char
  info : String
  size : Nat
deriving DecidableEq, Repr

/-- The `{key, hkdf}` result of `deriveSecretKey`. -/
structure SecretKeyMaterial where
  key : List Nat
  hkdf : HkdfParams
deriving DecidableEq, Repr

/-- `LibCrypto.deriveSecretKey`: defaults `sha256` / `"file-force"` / 32,
salt defaulting to `crypto.randomBytes(32)` (randomness explicit via
`seed`), hex-decoded by `str2buf` when given as a string; derives the key
with HKDF.  Only the default (and only used) hash `"sha256"` is embedded. -/
def deriveSecretKey (derivedSharedKey : List Nat) (options : HkdfOptions)
    (seed : Nat → Nat) : SecretKeyMaterial :=
  let hashAgl := options.hashAlg.getD "sha256"
  let info := options.info.getD "file-force"
  let size := options.size.getD 32
  let salt := str2buf (options.salt.getD (BinData.buf (randomBytes seed 32))) "hex"
  let hKey := if hashAgl = "sha256" then hkdf salt derivedSharedKey (strBytes info) size else []
  ⟨hKey, ⟨hashAgl, bytesToHex salt, info, size⟩⟩

theorem wordBytesBE_lt (w : Nat) : ∀ b ∈ wordBytesBE w, b < 256 := by
  intro b hb
  simp only [wordBytesBE, List.mem_cons, List.not_mem_nil, or_false] at hb
  rcases hb with h | h | h | h <;> omega

theorem sha256_length (msg : List Nat) : (sha256 msg).length = 32 := by
  simp [sha256, wordBytesBE]

theorem sha256_lt (msg : List Nat) : ∀ b ∈ sha256 msg, b < 256 := by
  intro b hb
  simp only [sha256, List.mem_append] at hb
  rcases hb with ((((((h | h) | h) | h) | h) | h) | h) | h <;> exact wordBytesBE_lt _ b h

theorem hmacSha256_length (key data : List Nat) : (hmacSha256 key data).length = 32 :=
  sha256_length _

theorem hmacSha256_lt (key data : List Nat) : ∀ b ∈ hmacSha256 key data, b < 256 :=
  sha256_lt _

theorem hkdf_32_eq (salt ikm info : List Nat) :
    hkdf salt ikm info 32 =
      (hmacSha256 (hkdfExtract salt ikm) (info ++ [1]) ++ []).take 32 := rfl

theorem hkdf_32_length (salt ikm info : List Nat) : (hkdf salt ikm info 32).length = 32 := by
  rw [hkdf_32_eq]
  simp [hmacSha256_length]

theorem hkdf_32_lt (salt ikm info : List Nat) : ∀ b ∈ hkdf salt ikm info 32, b < 256 := by
  intro b hb
  rw [hkdf_32_eq, List.append_nil] at hb
  exact hmacSha256_lt _ _ b (List.take_subset _ _ hb)

/-- The derived key as a function of the salt alone, other
`deriveSecretKey` arguments fixed (used to exhibit a salt collision). -/
def saltProbe (s : List Nat) : List Nat :=
  (deriveSecretKey [1, 2, 3] ⟨none, none, none, some (BinData.buf s)⟩ (fun _ => 0)).key

theorem saltProbe_eq (s : List Nat) :
    saltProbe s = hkdf s [1, 2, 3] (strBytes "file-force") 32 := by
  simp [saltProbe, deriveSecretKey, str2buf]

theorem saltProbe_length (s : List Nat) : (saltProbe s).length = 32 := by
  rw [saltProbe_eq]; exact hkdf_32_length _ _ _

theorem saltProbe_lt (s : List Nat) : ∀ b ∈ saltProbe s, b < 256 := by
  rw [saltProbe_eq]; exact hkdf_32_lt _ _ _

/-- Little-endian base-256 value of a byte list. -/
def encodeLE : List Nat → Nat
  | [] => 0
  | b :: rest => b + 256 * encodeLE rest

theorem encodeLE_lt (l : List Nat) (h : ∀ b ∈ l, b < 256) :
    encodeLE l < 256 ^ l.length := by
  induction l with
  | nil => simp [encodeLE]
  | cons b rest ih =>
    have hb : b < 256 := h b (List.mem_cons_self b rest)
    have he : encodeLE rest < 256 ^ rest.length :=
      ih (fun x hx => h x (List.mem_cons_of_mem b hx))
    simp only [encodeLE, List.length_cons, pow_succ]
    omega

theorem encodeLE_inj (l1 : List Nat) : ∀ l2 : List Nat, l1.length = l2.length →
    (∀ b ∈ l1, b < 256) → (∀ b ∈ l2, b < 256) →
    encodeLE l1 = encodeLE l2 → l1 = l2 := by
  induction l1 with
  | nil =>
    intro l2 hlen _ _ _
    exact (List.length_eq_zero.mp hlen.symm).symm
  | cons b rest ih =>
    intro l2 hlen h1 h2 he
    cases l2 with
    | nil => simp at hlen
    | cons c rest2 =>
      have hb : b < 256 := h1 b (List.mem_cons_self b rest)
      have hc : c < 256 := h2 c (List.mem_cons_self c rest2)
      simp only [encodeLE] at he
      have hbc : b = c := by omega
      have htl : encodeLE rest = encodeLE rest2 := by omega
      have := ih rest2 (by simpa using hlen)
        (fun x hx => h1 x (List.mem_cons_of_mem b hx))
        (fun x hx => h2 x (List.mem_cons_of_mem c hx)) htl
      rw [hbc, this]

/-- C5 counterexample: it is false that, with the secret, info and size
fixed, any two different salts make `deriveSecretKey` return different
keys — the key has exactly 32 bytes, so among the `256 ^ 32 + 1` pairwise
distinct salts `List.replicate i 0`, `i ≤ 256 ^ 32`, two must collide
(the collision exists mathematically, though it is computationally
infeasible to exhibit). -/
theorem deriveSecretKey_salt_injectivity_fails :
    ¬ (∀ s1 s2 : List Nat, s1 ≠ s2 →
        (deriveSecretKey [1, 2, 3] ⟨none, none, none, some (BinData.buf s1)⟩ (fun _ => 0)).key ≠
          (deriveSecretKey [1, 2, 3] ⟨none, none, none, some (BinData.buf s2)⟩ (fun _ => 0)).key) := by
  intro hdist
  have hmk : ∀ i : Fin (256 ^ 32 + 1), encodeLE (saltProbe (List.replicate i.val 0)) < 256 ^ 32 := by
    intro i
    have h := encodeLE_lt _ (saltProbe_lt (List.replicate i.val 0))
    rwa [saltProbe_length] at h
  obtain ⟨i, j, hne, heq⟩ :=
    Fintype.exists_ne_map_eq_of_card_lt
      (fun i : Fin (256 ^ 32 + 1) =>
        (⟨encodeLE (saltProbe (List.replicate i.val 0)), hmk i⟩ : Fin (256 ^ 32)))
      (by rw [Fintype.card_fin, Fintype.card_fin]; exact Nat.lt_succ_self _)
  have hvne : i.val ≠ j.val := fun hv => hne (Fin.ext hv)
  have hsne : List.replicate i.val (0 : Nat) ≠ List.replicate j.val 0 := by
    intro h
    exact hvne (by simpa using congrArg List.length h)
  have henc : encodeLE (saltProbe (List.replicate i.val 0)) =
      encodeLE (saltProbe (List.replicate j.val 0)) := congrArg Fin.val heq
  have hkeyeq : saltProbe (List.replicate i.val 0) = saltProbe (List.replicate j.val 0) :=
    encodeLE_inj _ _ (by rw [saltProbe_length, saltProbe_length])
      (saltProbe_lt _) (saltProbe_lt _) henc
  exact hdist _ _ hsne hkeyeq

/-- C5 (amended): `deriveSecretKey` is deterministic — with the salt (and
hence every input) fixed, two invocations with different randomness sources
return the identical key material; the random default only enters when the
salt option is absent. -/
theorem deriveSecretKey_deterministic (secret : List Nat) (options : HkdfOptions)
    (s : BinData) (seed1 seed2 : Nat → Nat) (hsalt : options.salt = some s) :
    deriveSecretKey secret options seed1 = deriveSecretKey secret options seed2 := by
  simp only [deriveSecretKey, hsalt, Option.getD_some]

theorem deriveSecretKey_deterministic_witness :
    deriveSecretKey [1, 2, 3] ⟨none, none, none, some (BinData.buf [4, 5])⟩ (fun _ => 0) =
      deriveSecretKey [1, 2, 3] ⟨none, none, none, some (BinData.buf [4, 5])⟩ (fun i => i + 1) :=
  deriveSecretKey_deterministic [1, 2, 3] ⟨none, none, none, some (BinData.buf [4, 5])⟩
    (BinData.buf [4, 5]) (fun _ => 0) (fun i => i + 1) rfl

end LibCrypto

/-!
The harvester command (`pull`, `modeToEvent`, `startHarvesting` at the end
of the combined source file).  The ledger subscription delivers a sequence
of `(error, event)` callbacks, embedded as a `List Delivery` processed in
order.  `redundant.pull`'s asynchronous outcome for a hash is embedded as
`pullResult : Nat → Option String` (`none` = done, `some e` = error);
content identifiers are kept as the event's big-number value (the
`bnToMultihash58` re-encoding applied for display is injective and
external).  The harvester's `pull` logs one line per attempted hash
(embedded as a `PullReport`) and, when the error is non-`none` and
fail-fast is configured, throws, which crashes the process, ending the
loop (embedded as the `crashed` flag; nothing after the crash runs).
-/

namespace Harvester

/-- The union of `event.args` fields the three handlers read. -/
structure EventArgs where
  ipfs : Nat
  ipfsOrigin : Nat
  ipfsNew : Nat
deriving DecidableEq, Repr

structure LedgerEvent where
  blockNumber : Nat
  args : EventArgs
deriving DecidableEq, Repr

/-- One `(error, event)` delivery from `watchEvents`. -/
inductive Delivery where
  | err (message : String)
  | ev (event : LedgerEvent)
deriving DecidableEq, Repr

/-- The `--mode` option selecting the `modeToEvent` entry. -/
inductive Mode where
  | file
  | ectag
  | ecdtag
deriving DecidableEq, Repr

/-- The hashes each mode's handler pulls, in invocation order:
`file` and `ectag` pull `args.ipfs`; `ecdtag` pulls `args.ipfsOrigin`
then `args.ipfsNew`. -/
def modeHashes : Mode → EventArgs → List Nat
  | .file, a => [a.ipfs]
  | .ectag, a => [a.ipfs]
  | .ecdtag, a => [a.ipfsOrigin, a.ipfsNew]

/-- The log line the harvester's `pull` prints for one hash:
`hash on blockNumber block (error | done)`. -/
structure PullReport where
  hash : Nat
  blockNumber : Nat
  error : Option String
deriving DecidableEq, Repr

/-- Run the harvester's `pull` for each hash of one event: report each
outcome; when an error arrives and fail-fast is configured, the callback
throws, crashing the loop (second component `true`) with nothing after it
executed. -/
def runPulls (failFast : Bool) (pullResult : Nat → Option String)
    (blockNumber : Nat) : List Nat → List PullReport × Bool
  | [] => ([], false)
  | h :: rest =>
    let e := pullResult h
    if e.isSome && failFast then ([⟨h, blockNumber, e⟩], true)
    else
      let t := runPulls failFast pullResult blockNumber rest
      (⟨h, blockNumber, e⟩ :: t.1, t.2)

/-- The reports and crash flag of a harvester run. -/
structure HarvestResult where
  reports : List PullReport
  crashed : Bool
deriving DecidableEq, Repr

/-- `startHarvesting`: process each delivery in order; the watch callback
runs the mode's handler only when the delivery carries no error
(`if (!error) mode.handler(event)` — an error delivery is skipped silently,
reporting nothing, regardless of fail-fast); a crash inside a handler ends
the loop. -/
def startHarvesting (failFast : Bool) (pullResult : Nat → Option String)
    (mode : Mode) : List Delivery → HarvestResult
  | [] => ⟨[], false⟩
  | .err _ :: rest => startHarvesting failFast pullResult mode rest
  | .ev e :: rest =>
    let p := runPulls failFast pullResult e.blockNumber (modeHashes mode e.args)
    if p.2 then ⟨p.1, true⟩
    else
      let t := startHarvesting failFast pullResult mode rest
      ⟨p.1 ++ t.reports, t.crashed⟩

/-- The events among a delivery list, in order. -/
def eventsOf : List Delivery → List LedgerEvent
  | [] => []
  | .err _ :: rest => eventsOf rest
  | .ev e :: rest => e :: eventsOf rest

theorem runPulls_false (pullResult : Nat → Option String) (bn : Nat) (hs : List Nat) :
    runPulls false pullResult bn hs =
      (hs.map (fun h => ⟨h, bn, pullResult h⟩), false) := by
  induction hs with
  | nil => rfl
  | cons h rest ih => simp [runPulls, ih]

theorem startHarvesting_false (pullResult : Nat → Option String) (mode : Mode)
    (ds : List Delivery) :
    startHarvesting false pullResult mode ds =
      ⟨(eventsOf ds).flatMap
        (fun e => (modeHashes mode e.args).map (fun h => ⟨h, e.blockNumber, pullResult h⟩)),
       false⟩ := by
  induction ds with
  | nil => rfl
  | cons d rest ih =>
    cases d with
    | err m => simpa [startHarvesting, eventsOf] using ih
    | ev e => simp [startHarvesting, eventsOf, runPulls_false, ih]

theorem runPulls_true_crash_iff (pullResult : Nat → Option String) (bn : Nat)
    (hs : List Nat) :
    (runPulls true pullResult bn hs).2 = true ↔
      ∃ h ∈ hs, (pullResult h).isSome = true := by
  induction hs with
  | nil => simp [runPulls]
  | cons h rest ih =>
    by_cases he : (pullResult h).isSome = true
    · simp [runPulls, he]
    · simp [runPulls, he, ih]

theorem startHarvesting_true_crash_iff (pullResult : Nat → Option String) (mode : Mode)
    (ds : List Delivery) :
    (startHarvesting true pullResult mode ds).crashed = true ↔
      ∃ e ∈ eventsOf ds, ∃ h ∈ modeHashes mode e.args, (pullResult h).isSome = true := by
  induction ds with
  | nil => simp [startHarvesting, eventsOf]
  | cons d rest ih =>
    cases d with
    | err m => simpa [startHarvesting, eventsOf] using ih
    | ev e =>
      by_cases hp : (runPulls true pullResult e.blockNumber (modeHashes mode e.args)).2 = true
      · have := (runPulls_true_crash_iff pullResult e.blockNumber (modeHashes mode e.args)).mp hp
        simp [startHarvesting, eventsOf, hp]
        exact Or.inl this
      · have hnone := hp
        rw [runPulls_true_crash_iff] at hnone
        simp [startHarvesting, eventsOf, hp, ih, hnone]

theorem runPulls_true_nocrash_errors (pullResult : Nat → Option String) (bn : Nat)
    (hs : List Nat) (hnc : (runPulls true pullResult bn hs).2 = false) :
    ∀ r ∈ (runPulls true pullResult bn hs).1, r.error = none := by
  induction hs with
  | nil => intro r hr; simp [runPulls] at hr
  | cons x rest ih =>
    cases hx : pullResult x with
    | some m => simp [runPulls, hx] at hnc
    | none =>
      intro r hr
      simp only [runPulls, hx, Option.isSome_none, Bool.false_and, Bool.false_eq_true,
        if_false] at hr hnc
      rcases List.mem_cons.mp hr with rfl | hr
      · rfl
      · exact ih hnc r hr

theorem runPulls_true_crash_count (pullResult : Nat → Option String) (bn : Nat)
    (hs : List Nat) (hcrash : (runPulls true pullResult bn hs).2 = true) :
    ((runPulls true pullResult bn hs).1.countP (fun r => r.error.isSome)) = 1 := by
  induction hs with
  | nil => simp [runPulls] at hcrash
  | cons x rest ih =>
    cases hx : pullResult x with
    | some m => simp [runPulls, hx, List.countP_cons]
    | none =>
      simp only [runPulls, hx, Option.isSome_none, Bool.false_and, Bool.false_eq_true,
        if_false] at hcrash ⊢
      simp [List.countP_cons, ih hcrash]

theorem startHarvesting_true_count (pullResult : Nat → Option String) (mode : Mode)
    (ds : List Delivery) :
    (startHarvesting true pullResult mode ds).reports.countP (fun r => r.error.isSome) =
      if (startHarvesting true pullResult mode ds).crashed then 1 else 0 := by
  induction ds with
  | nil => simp [startHarvesting]
  | cons d rest ih =>
    cases d with
    | err m => simpa [startHarvesting] using ih
    | ev e =>
      by_cases hp : (runPulls true pullResult e.blockNumber (modeHashes mode e.args)).2 = true
      · simp [startHarvesting, hp, runPulls_true_crash_count pullResult e.blockNumber _ hp]
      · have hnc : (runPulls true pullResult e.blockNumber (modeHashes mode e.args)).2 = false :=
          Bool.not_eq_true _ ▸ hp
        have hzero :
            (runPulls true pullResult e.blockNumber (modeHashes mode e.args)).1.countP
              (fun r => r.error.isSome) = 0 := by
          rw [List.countP_eq_zero]
          intro r hr
          rw [runPulls_true_nocrash_errors pullResult e.blockNumber _ hnc r hr]
          simp
        simp [startHarvesting, hnc, List.countP_append, hzero, ih]

theorem mem_eventsOf (e : LedgerEvent) (ds : List Delivery)
    (hmem : Delivery.ev e ∈ ds) : e ∈ eventsOf ds := by
  induction ds with
  | nil => cases hmem
  | cons d rest ih =>
    rcases List.mem_cons.mp hmem with rfl | hm
    · simp [eventsOf]
    · cases d <;> simp [eventsOf, ih hm]

/-- C7 (amended): an error in event delivery is skipped silently — it is
never reported and never ends the loop, fail-fast or not
(`if (!error) mode.handler(event)` has no else branch).  Per-pull errors
are what the claim describes: with fail-fast off, the loop never crashes
and every pulled hash of every delivered event is reported together with
its error; with fail-fast on, the loop crashes exactly when some handled
event has an erring pull, and at most one erring report is ever produced —
the first pull error terminates the loop. -/
theorem harvester_error_handling (pullResult : Nat → Option String) (mode : Mode)
    (ds : List Delivery) :
    (startHarvesting false pullResult mode ds).crashed = false
    ∧ (startHarvesting false pullResult mode ds).reports =
        (eventsOf ds).flatMap
          (fun e => (modeHashes mode e.args).map (fun h => ⟨h, e.blockNumber, pullResult h⟩))
    ∧ ((startHarvesting true pullResult mode ds).crashed = true ↔
        ∃ e ∈ eventsOf ds, ∃ h ∈ modeHashes mode e.args, (pullResult h).isSome = true)
    ∧ (startHarvesting true pullResult mode ds).reports.countP (fun r => r.error.isSome) =
        (if (startHarvesting true pullResult mode ds).crashed then 1 else 0) := by
  refine ⟨?_, ?_, startHarvesting_true_crash_iff pullResult mode ds,
    startHarvesting_true_count pullResult mode ds⟩
  · rw [startHarvesting_false]
  · rw [startHarvesting_false]

/-- C7 counterexample: with fail-fast configured, a delivery that carries
an error is *not* the end of the loop — the harvester skips it (reporting
nothing about it, contradicting "every per-event error is reported") and
goes on to process the following event, and the run does not crash;
likewise without fail-fast the delivery error is reported nowhere. -/
theorem harvester_delivery_error_skipped :
    (startHarvesting true (fun _ => none) .file
        [.err "boom", .ev ⟨4, ⟨7, 8, 9⟩⟩]).crashed = false
    ∧ (startHarvesting true (fun _ => none) .file
        [.err "boom", .ev ⟨4, ⟨7, 8, 9⟩⟩]).reports = [⟨7, 4, none⟩]
    ∧ (startHarvesting false (fun _ => none) .file [.err "boom"]).reports = [] := by
  decide

/-- C8: for every delegation (`ecdtag` / `EcTagDelegated`) event delivered
without error, the harvester invokes `pull` on both content identifiers the
event carries — `args.ipfsOrigin` and `args.ipfsNew` — each producing its
report. -/
theorem ecdtag_pulls_both_identifiers (pullResult : Nat → Option String)
    (ds : List Delivery) (e : LedgerEvent) (hmem : Delivery.ev e ∈ ds) :
    (⟨e.args.ipfsOrigin, e.blockNumber, pullResult e.args.ipfsOrigin⟩ : PullReport) ∈
        (startHarvesting false pullResult .ecdtag ds).reports
    ∧ (⟨e.args.ipfsNew, e.blockNumber, pullResult e.args.ipfsNew⟩ : PullReport) ∈
        (startHarvesting false pullResult .ecdtag ds).reports := by
  rw [startHarvesting_false]
  have he : e ∈ eventsOf ds := mem_eventsOf e ds hmem
  constructor <;>
    (simp only [List.mem_flatMap]
     exact ⟨e, he, by simp [modeHashes]⟩)

theorem ecdtag_pulls_both_identifiers_witness :
    (⟨7, 4, none⟩ : PullReport) ∈
        (startHarvesting false (fun _ => none) .ecdtag [.ev ⟨4, ⟨1, 7, 9⟩⟩]).reports
    ∧ (⟨9, 4, none⟩ : PullReport) ∈
        (startHarvesting false (fun _ => none) .ecdtag [.ev ⟨4, ⟨1, 7, 9⟩⟩]).reports :=
  ecdtag_pulls_both_identifiers (fun _ => none) [.ev ⟨4, ⟨1, 7, 9⟩⟩] ⟨4, ⟨1, 7, 9⟩⟩
    (by decide)

end Harvester

namespace Redundant

/-!
Modelled from the spec: the `Redundant` class (`lib/libredundant`) is not
among the provided sources — `src/cmd-ipfs.js` and the harvester only call
its `pull`.  Spec §4.5 (RedundantRetrieval): `pull(contentIdentifier)` is a
no-op if the identifier is already present locally; otherwise it queries
`providers(contentIdentifier)` for candidate peers and attempts a fetch
against each sequentially, stopping at the first success and persisting the
result; exhausting all candidates yields `UnavailableContent`.
-/

inductive PullStatus where
  | success
  | unavailableContent
deriving DecidableEq, Repr

/-- Externally observable work of one `pull`: provider-discovery queries
issued and network fetch attempts made. -/
structure PullStats where
  providerQueries : Nat
  fetchAttempts : Nat
deriving DecidableEq, Repr

/-- Result of a `pull`: its status, the local store afterwards, and the
network work performed. -/
structure PullOutcome where
  status : PullStatus
  store : List Nat
  stats : PullStats
deriving DecidableEq, Repr

/-- Modelled from the spec: sequential fetch attempts against the candidate
peers, stopping at the first success; returns the succeeding peer (if any)
and the number of attempts made. -/
def tryProviders (fetch : Nat → Nat → Bool) (cid : Nat) : List Nat → Option Nat × Nat
  | [] => (none, 0)
  | p :: rest =>
    if fetch p cid then (some p, 1)
    else
      let t := tryProviders fetch cid rest
      (t.1, t.2 + 1)

/-- Modelled from the spec: `Redundant.pull` — no-op when the identifier is
already local (zero provider queries, zero fetch attempts); otherwise one
`providers` query, sequential fetch attempts, persisting on success. -/
def pull (providersOf : Nat → List Nat) (fetch : Nat → Nat → Bool)
    (store : List Nat) (cid : Nat) : PullOutcome :=
  if cid ∈ store then ⟨.success, store, ⟨0, 0⟩⟩
  else
    let t := tryProviders fetch cid (providersOf cid)
    match t.1 with
    | some _ => ⟨.success, cid :: store, ⟨1, t.2⟩⟩
    | none => ⟨.unavailableContent, store, ⟨1, t.2⟩⟩

/-- C9: once a `pull` has succeeded the content is local, and a second
`pull` of the same identifier succeeds as a no-op performing zero provider
queries and zero fetch attempts. -/
theorem pull_idempotent (providersOf : Nat → List Nat) (fetch : Nat → Nat → Bool)
    (store : List Nat) (cid : Nat)
    (hsucc : (pull providersOf fetch store cid).status = .success) :
    pull providersOf fetch (pull providersOf fetch store cid).store cid =
      ⟨.success, (pull providersOf fetch store cid).store, ⟨0, 0⟩⟩ := by
  by_cases hin : cid ∈ store
  · simp [pull, hin]
  · cases ht : (tryProviders fetch cid (providersOf cid)).1 with
    | none => simp [pull, hin, ht] at hsucc
    | some p =>
      have h1 : (pull providersOf fetch store cid).store = cid :: store := by
        simp [pull, hin, ht]
      rw [h1]
      simp [pull]

theorem pull_idempotent_witness :
    pull (fun _ => [5]) (fun _ _ => true)
        ((pull (fun _ => [5]) (fun _ _ => true) [] 3).store) 3 =
      ⟨.success, (pull (fun _ => [5]) (fun _ _ => true) [] 3).store, ⟨0, 0⟩⟩ :=
  pull_idempotent (fun _ => [5]) (fun _ _ => true) [] 3 (by decide)

end Redundant
